import Mathlib

/-!
Verification of the light-client-example repository: the Merkle-proof
generator (`parameter_generator/src/main.rs`) and the NEAR contract
(`contract/src/lib.rs`).  Rust strings and byte slices are modelled as
`List Nat` of byte values; fallible operations (hex decoding, panicking
indexing, `expect`/`unwrap`) return `Except`/`Option`.
-/

/-! ## Model of the `hex` crate (shared dependency of both crates) -/

/-- Error type of `hex::FromHexError`. -/
inductive FromHexError where
  | InvalidHexCharacter (c : Nat) (index : Nat)
  | OddLength
  | InvalidStringLength
deriving DecidableEq, Repr

/-- Decidable equality for `Except`, written by hand so that `decide` can
evaluate it in the kernel. -/
instance exceptDecEq {ε α : Type} [DecidableEq ε] [DecidableEq α] :
    DecidableEq (Except ε α)
  | .error a, .error b =>
    match decEq a b with
    | isTrue h => isTrue (h ▸ rfl)
    | isFalse h => isFalse (fun hh => h (by cases hh; rfl))
  | .error _, .ok _ => isFalse (fun hh => Except.noConfusion hh)
  | .ok _, .error _ => isFalse (fun hh => Except.noConfusion hh)
  | .ok a, .ok b =>
    match decEq a b with
    | isTrue h => isTrue (h ▸ rfl)
    | isFalse h => isFalse (fun hh => h (by cases hh; rfl))

/-- `hex`'s `val`: the value of one hex-digit byte (`0-9`, `a-f`, `A-F`). -/
def hexVal (b : Nat) : Option Nat :=
  if 48 ≤ b ∧ b ≤ 57 then some (b - 48)
  else if 97 ≤ b ∧ b ≤ 102 then some (b - 97 + 10)
  else if 65 ≤ b ∧ b ≤ 70 then some (b - 65 + 10)
  else none

/-- Lower-case hex digit for a value below 16 (as `hex::encode` emits). -/
def hexDigit (n : Nat) : Nat :=
  if n < 10 then 48 + n else 87 + n

/-- `hex::encode`: each byte becomes two lower-case hex digits. -/
def hexEncode : List Nat → List Nat
  | [] => []
  | b :: rest => hexDigit (b / 16) :: hexDigit (b % 16) :: hexEncode rest

/-- The digit-pair scan inside `hex::decode_to_slice`: bytes are decoded
pair by pair, left to right, failing at the first non-hex digit. -/
def decodePairs : List Nat → Nat → Except FromHexError (List Nat)
  | [], _ => .ok []
  | [_], _ => .ok []
  | hi :: lo :: rest, idx =>
    match hexVal hi with
    | none => .error (.InvalidHexCharacter hi idx)
    | some h =>
      match hexVal lo with
      | none => .error (.InvalidHexCharacter lo (idx + 1))
      | some l =>
        match decodePairs rest (idx + 2) with
        | .error e => .error e
        | .ok bs => .ok ((16 * h + l) :: bs)

/-- `hex::decode_to_slice` into a 32-byte buffer: the input must have even
length, exactly 64 digits, and every digit must be a hex character. -/
def decode_to_slice (data : List Nat) : Except FromHexError (List Nat) :=
  if data.length % 2 = 0 then
    if data.length / 2 = 32 then decodePairs data 0
    else .error .InvalidStringLength
  else .error .OddLength

/-! ## Model of the `sha2` crate: SHA-256 over byte lists -/

/-- Truncation to a 32-bit word. -/
def w32 (n : Nat) : Nat := n % 4294967296

/-- 32-bit right rotation. -/
def rotr32 (n x : Nat) : Nat := w32 ((x >>> n) ||| (x <<< (32 - n)))

/-- SHA-256 `Ch` function. -/
def shaCh (x y z : Nat) : Nat := (x &&& y) ^^^ ((x ^^^ 4294967295) &&& z)

/-- SHA-256 `Maj` function. -/
def shaMaj (x y z : Nat) : Nat := (x &&& y) ^^^ (x &&& z) ^^^ (y &&& z)

/-- SHA-256 big sigma 0. -/
def bigSigma0 (x : Nat) : Nat := rotr32 2 x ^^^ rotr32 13 x ^^^ rotr32 22 x

/-- SHA-256 big sigma 1. -/
def bigSigma1 (x : Nat) : Nat := rotr32 6 x ^^^ rotr32 11 x ^^^ rotr32 25 x

/-- SHA-256 small sigma 0. -/
def smallSigma0 (x : Nat) : Nat := rotr32 7 x ^^^ rotr32 18 x ^^^ (x >>> 3)

/-- SHA-256 small sigma 1. -/
def smallSigma1 (x : Nat) : Nat := rotr32 17 x ^^^ rotr32 19 x ^^^ (x >>> 10)

/-- SHA-256 round constants. -/
def K256 : List Nat :=
  [1116352408, 1899447441, 3049323471, 3921009573, 961987163, 1508970993,
   2453635748, 2870763221, 3624381080, 310598401, 607225278, 1426881987,
   1925078388, 2162078206, 2614888103, 3248222580, 3835390401, 4022224774,
   264347078, 604807628, 770255983, 1249150122, 1555081692, 1996064986,
   2554220882, 2821834349, 2952996808, 3210313671, 3336571891, 3584528711,
   113926993, 338241895, 666307205, 773529912, 1294757372, 1396182291,
   1695183700, 1986661051, 2177026350, 2456956037, 2730485921, 2820302411,
   3259730800, 3345764771, 3516065817, 3600352804, 4094571909, 275423344,
   430227734, 506948616, 659060556, 883997877, 958139571, 1322822218,
   1537002063, 1747873779, 1955562222, 2024104815, 2227730452, 2361852424,
   2428436474, 2756734187, 3204031479, 3329325298]

/-- SHA-256 initial hash state. -/
def initH256 : List Nat :=
  [1779033703, 3144134277, 1013904242, 2773480762,
   1359893119, 2600822924, 528734635, 1541459225]

/-- Big-endian 64-bit encoding of a natural number (for the length field). -/
def u64BE (n : Nat) : List Nat :=
  [n / 72057594037927936 % 256, n / 281474976710656 % 256, n / 1099511627776 % 256,
   n / 4294967296 % 256, n / 16777216 % 256, n / 65536 % 256, n / 256 % 256, n % 256]

/-- SHA-256 message padding: `0x80`, zeros to 56 mod 64, 64-bit bit length. -/
def padMessage (msg : List Nat) : List Nat :=
  msg ++ [128] ++ List.replicate ((119 - msg.length % 64) % 64) 0 ++ u64BE (8 * msg.length)

/-- Split a padded message into 64-byte blocks. -/
def toBlocks : List Nat → List (List Nat)
  | [] => []
  | x :: xs => (x :: xs).take 64 :: toBlocks ((x :: xs).drop 64)
termination_by l => l.length
decreasing_by simp; omega

/-- Group bytes into big-endian 32-bit words. -/
def bytesToWordsBE : List Nat → List Nat
  | b0 :: b1 :: b2 :: b3 :: rest =>
    (b0 * 16777216 + b1 * 65536 + b2 * 256 + b3) :: bytesToWordsBE rest
  | _ => []

/-- Extend the 16-word message schedule by `k` further words. -/
def extendSchedule : List Nat → Nat → List Nat
  | w, 0 => w
  | w, k + 1 =>
    extendSchedule
      (w ++ [w32 (w.getD (w.length - 16) 0 + smallSigma0 (w.getD (w.length - 15) 0) +
                  w.getD (w.length - 7) 0 + smallSigma1 (w.getD (w.length - 2) 0))]) k

/-- One SHA-256 compression round on the 8-word working state. -/
def compressRound (state : List Nat) (kw : Nat × Nat) : List Nat :=
  match state with
  | [a, b, c, d, e, f, g, h] =>
    let t1 := w32 (h + bigSigma1 e + shaCh e f g + kw.1 + kw.2)
    let t2 := w32 (bigSigma0 a + shaMaj a b c)
    [w32 (t1 + t2), a, b, c, w32 (d + t1), e, f, g]
  | s => s

/-- Process one 64-byte block into the running hash state. -/
def processBlock (hs : List Nat) (block : List Nat) : List Nat :=
  let w := extendSchedule (bytesToWordsBE block) 48
  let final := (K256.zip w).foldl compressRound hs
  (hs.zip final).map (fun p => w32 (p.1 + p.2))

/-- SHA-256 of a byte list, as 32 output bytes. -/
def sha256 (msg : List Nat) : List Nat :=
  let hs := (toBlocks (padMessage msg)).foldl processBlock initH256
  hs.foldr (fun w acc => w / 16777216 % 256 :: w / 65536 % 256 :: w / 256 % 256 :: w % 256 :: acc) []

/-! ## Model of the `borsh` helpers and `serde_json` boolean parsing -/

/-- Little-endian 8-byte encoding of a `u64` (borsh). -/
def u64LE (n : Nat) : List Nat :=
  [n % 256, n / 256 % 256, n / 65536 % 256, n / 16777216 % 256,
   n / 4294967296 % 256, n / 1099511627776 % 256, n / 281474976710656 % 256,
   n / 72057594037927936 % 256]

/-- Little-endian 4-byte encoding of a `u32` (borsh `Vec` length prefix). -/
def u32LE (n : Nat) : List Nat :=
  [n % 256, n / 256 % 256, n / 65536 % 256, n / 16777216 % 256]

/-- JSON whitespace bytes (space, tab, newline, carriage return). -/
def isJsonWs (b : Nat) : Bool := b == 32 || b == 9 || b == 10 || b == 13

/-- Model of `serde_json::from_slice::<bool>`: the bytes must be exactly the
literal `true` or `false`, allowing surrounding JSON whitespace. -/
def parseJsonBool (bs : List Nat) : Option Bool :=
  let s := bs.dropWhile isJsonWs
  if s.take 4 = [116, 114, 117, 101] ∧ ((s.drop 4).dropWhile isJsonWs).isEmpty then some true
  else if s.take 5 = [102, 97, 108, 115, 101] ∧ ((s.drop 5).dropWhile isJsonWs).isEmpty then
    some false
  else none

/-! ## `parameter_generator/src/main.rs` -/

namespace ParameterGenerator

/-- `pub struct H256(pub [u8; 32])` of `parameter_generator/src/main.rs`. -/
structure H256 where
  bytes : List Nat
deriving DecidableEq, Repr

/-- `impl FromStr for H256` (main.rs): hex-decode into 32 bytes, then
reverse the byte order before storing. -/
def H256.from_str (s : List Nat) : Except FromHexError H256 :=
  match decode_to_slice s with
  | .error e => .error e
  | .ok bs => .ok ⟨bs.reverse⟩

/-- `impl fmt::Display for H256` (main.rs): reverse the stored bytes and
hex-encode. -/
def H256.to_display_string (h : H256) : List Nat :=
  hexEncode h.bytes.reverse

/-- `impl Serialize for H256` (main.rs): reverse the stored bytes and emit
them as a hex string. -/
def H256.serdeSerialize (h : H256) : List Nat :=
  hexEncode h.bytes.reverse

/-- Borsh serialization of `H256` (derived): the 32 bytes, unmodified. -/
def H256.borshSerialize (h : H256) : List Nat :=
  h.bytes

/-- `double_sha256` (main.rs): SHA-256 applied twice. -/
def double_sha256 (input : List Nat) : H256 :=
  ⟨sha256 (sha256 input)⟩

/-- `compute_hash` (main.rs): double SHA-256 of the concatenation, first
operand's bytes first. -/
def compute_hash (first_tx_hash second_tx_hash : H256) : H256 :=
  double_sha256 (first_tx_hash.bytes ++ second_tx_hash.bytes)

/-- The inner `for i in (0..len-1).step_by(2)` loop of
`merkle_proof_calculator`: hash adjacent pairs to build the next level. -/
def combinePairs : List H256 → List H256
  | a :: b :: rest => compute_hash a b :: combinePairs rest
  | _ => []

/-- The odd-level duplication step of `merkle_proof_calculator`: when the
level has odd length, append a copy of `level[len - 1]`. -/
def padLevel (level : List H256) : Option (List H256) :=
  if level.length % 2 = 1 then
    (level[level.length - 1]?).map (fun last => level ++ [last])
  else some level

/-- The `while current_hashes.len() > 1` loop of `merkle_proof_calculator`,
with explicit fuel (each iteration strictly shrinks the level, so fuel equal
to the level length suffices).  `none` models a Rust index-out-of-bounds
panic while reading the sibling. -/
def proofLoop (fuel : Nat) (level : List H256) (transaction_position : Nat) :
    Option (List H256) :=
  if level.length ≤ 1 then some []
  else
    match fuel with
    | 0 => none
    | fuel + 1 => do
      let padded ← padLevel level
      let sib ←
        if transaction_position % 2 = 1 then padded[transaction_position - 1]?
        else padded[transaction_position + 1]?
      let rest ← proofLoop fuel (combinePairs padded) (transaction_position / 2)
      pure (sib :: rest)

/-- `merkle_proof_calculator` (main.rs): run the level loop starting from
the leaves.  No bounds check on `transaction_position` is performed. -/
def merkle_proof_calculator (tx_hashes : List H256) (transaction_position : Nat) :
    Option (List H256) :=
  proofLoop tx_hashes.length tx_hashes transaction_position

/-- Modelled from the spec: the Merkle root of a level — "the single value
obtained by repeatedly pairing the level with the odd-level duplication rule
and hashing" — with the same fuel discipline as `proofLoop`. -/
def rootLoop (fuel : Nat) (level : List H256) : Option H256 :=
  if level.length ≤ 1 then level.head?
  else
    match fuel with
    | 0 => none
    | fuel + 1 => do
      let padded ← padLevel level
      rootLoop fuel (combinePairs padded)

/-- Modelled from the spec: the Merkle root of a leaf sequence. -/
def merkleRoot (leaves : List H256) : Option H256 :=
  rootLoop leaves.length leaves

/-- Modelled from the spec: recombining a leaf with a proof path — at each
step the sibling is placed on the left when the running index is odd and on
the right when it is even, hashing with `compute_hash` (double SHA-256 of
the left-first concatenation) and halving the index. -/
def foldProofPath (leaf : H256) (pos : Nat) : List H256 → H256
  | [] => leaf
  | sib :: rest =>
    foldProofPath (if pos % 2 = 1 then compute_hash sib leaf else compute_hash leaf sib)
      (pos / 2) rest

end ParameterGenerator

/-! ## `contract/src/lib.rs` -/

namespace Contract

/-- `pub struct H256(pub [u8; 32])` of `contract/src/lib.rs`. -/
structure H256 where
  bytes : List Nat
deriving DecidableEq, Repr

/-- `impl FromStr for H256` (lib.rs): hex-decode into 32 bytes, then
reverse the byte order before storing. -/
def H256.from_str (s : List Nat) : Except FromHexError H256 :=
  match decode_to_slice s with
  | .error e => .error e
  | .ok bs => .ok ⟨bs.reverse⟩

/-- `impl Serialize for H256` (lib.rs): reverse the stored bytes and emit
them as a hex string. -/
def H256.serdeSerialize (h : H256) : List Nat :=
  hexEncode h.bytes.reverse

/-- Borsh serialization of `H256` (from `#[near(serializers = [borsh])]`):
the 32 bytes, unmodified. -/
def H256.borshSerialize (h : H256) : List Nat :=
  h.bytes

/-- `pub struct ProofArgs` (lib.rs). -/
structure ProofArgs where
  tx_id : H256
  tx_block_blockhash : H256
  tx_index : Nat
  merkle_proof : List H256
  confirmations : Nat
deriving DecidableEq, Repr

/-- Borsh serialization of `ProofArgs` (derived): fields in declaration
order; fixed arrays raw, `u64` little-endian, `Vec` with a `u32` length
prefix. -/
def ProofArgs.borshSerialize (p : ProofArgs) : List Nat :=
  p.tx_id.borshSerialize ++ p.tx_block_blockhash.borshSerialize ++
    u64LE p.tx_index ++ u32LE p.merkle_proof.length ++
    (p.merkle_proof.map H256.borshSerialize).flatten ++ u64LE p.confirmations

/-- The promise built by `verify_transaction_inclusion`: the external call
dispatched to the light client, with the private callback chained on. -/
structure Promise where
  receiver_id : String
  args : ProofArgs
  callback_attached : Bool
deriving DecidableEq, Repr

/-- The `merkle_proof.into_iter().map(|v| v.parse().expect(..)).collect()`
step: parse every hex string, panicking (`none`) on the first failure. -/
def parseProofList : List (List Nat) → Option (List H256)
  | [] => some []
  | v :: rest =>
    match H256.from_str v with
    | .error _ => none
    | .ok h => (parseProofList rest).map (h :: ·)

/-- `Contract::verify_transaction_inclusion` (lib.rs): parse every supplied
hex string (each `.expect` panic is `none`, aborting before any dispatch),
then dispatch the borsh-encoded `ProofArgs` to `btc-client.testnet` with
`internal_verify_withdraw_callback` chained as the continuation. -/
def verify_transaction_inclusion (tx_id tx_block_blockhash : List Nat)
    (tx_index : Nat) (merkle_proof : List (List Nat)) (confirmations : Nat) :
    Option Promise :=
  match H256.from_str tx_id with
  | .error _ => none
  | .ok t =>
    match H256.from_str tx_block_blockhash with
    | .error _ => none
    | .ok b =>
      match parseProofList merkle_proof with
      | none => none
      | some mp =>
        some { receiver_id := "btc-client.testnet",
               args := { tx_id := t, tx_block_blockhash := b, tx_index := tx_index,
                         merkle_proof := mp, confirmations := confirmations },
               callback_attached := true }

/-- `Contract::internal_verify_withdraw_callback` (lib.rs).  The input is
`promise_result_as_success()`: `some bytes` when the remote call succeeded,
`none` when it failed.  The output carries the returned boolean together
with the emitted log lines; `none` models the `.unwrap()` panic on bytes
that are not a well-formed JSON boolean. -/
def internal_verify_withdraw_callback (promiseResult : Option (List Nat)) :
    Option (Bool × List String) :=
  match promiseResult with
  | some result_bytes =>
    match parseJsonBool result_bytes with
    | none => none
    | some result => some (result, if result then ["business logic"] else [])
  | none => some (false, [])

end Contract

/-! ## Lemmas about the hex model -/

theorem hexVal_lt {c v : Nat} (h : hexVal c = some v) : v < 16 := by
  unfold hexVal at h
  split_ifs at h <;> simp_all <;> omega

theorem hexVal_hexDigit : ∀ n, n < 16 → hexVal (hexDigit n) = some n := by decide

theorem hexEncode_length : ∀ bs : List Nat, (hexEncode bs).length = 2 * bs.length
  | [] => rfl
  | b :: rest => by simp [hexEncode, hexEncode_length rest]; ring

theorem hexEncode_valid : ∀ bs : List Nat, (∀ b ∈ bs, b < 256) →
    ∀ c ∈ hexEncode bs, (hexVal c).isSome
  | [], _, c, hc => by simp [hexEncode] at hc
  | b :: rest, hb, c, hc => by
    have hblt : b < 256 := hb b (by simp)
    simp only [hexEncode, List.mem_cons] at hc
    rcases hc with rfl | rfl | hc
    · rw [hexVal_hexDigit (b / 16) (by omega)]; rfl
    · rw [hexVal_hexDigit (b % 16) (by omega)]; rfl
    · exact hexEncode_valid rest (fun x hx => hb x (by simp [hx])) c hc

theorem decodePairs_ok_of_valid :
    ∀ (l : List Nat) (idx : Nat), (∀ c ∈ l, (hexVal c).isSome) →
    ∃ bs, decodePairs l idx = .ok bs ∧ bs.length = l.length / 2 ∧ ∀ b ∈ bs, b < 256
  | [], _, _ => ⟨[], rfl, by simp, by simp⟩
  | [_], _, _ => ⟨[], rfl, by simp, by simp⟩
  | hi :: lo :: rest, idx, hv => by
    obtain ⟨h, hh⟩ := Option.isSome_iff_exists.mp (hv hi (by simp))
    obtain ⟨l, hl⟩ := Option.isSome_iff_exists.mp (hv lo (by simp))
    obtain ⟨bs, hbs, hlen, hlt⟩ :=
      decodePairs_ok_of_valid rest (idx + 2) (fun c hc => hv c (by simp [hc]))
    refine ⟨(16 * h + l) :: bs, ?_, ?_, ?_⟩
    · simp [decodePairs, hh, hl, hbs]
    · simp [hlen]; omega
    · intro b hb
      rcases List.mem_cons.mp hb with rfl | hb
      · have := hexVal_lt hh; have := hexVal_lt hl; omega
      · exact hlt b hb

theorem decodePairs_valid_of_ok :
    ∀ (l : List Nat) (idx : Nat) (bs : List Nat), l.length % 2 = 0 →
    decodePairs l idx = .ok bs → ∀ c ∈ l, (hexVal c).isSome
  | [], _, _, _, _, c, hc => by simp at hc
  | [_], _, _, heven, _, c, hc => by simp at heven
  | hi :: lo :: rest, idx, bs, heven, hok, c, hc => by
    rcases hhi : hexVal hi with _ | h
    · simp [decodePairs, hhi] at hok
    rcases hlo : hexVal lo with _ | l
    · simp [decodePairs, hhi, hlo] at hok
    rcases hrest : decodePairs rest (idx + 2) with e | bs'
    · simp [decodePairs, hhi, hlo, hrest] at hok
    rcases List.mem_cons.mp hc with rfl | hc'
    · simp [hhi]
    rcases List.mem_cons.mp hc' with rfl | hc''
    · simp [hlo]
    · exact decodePairs_valid_of_ok rest (idx + 2) bs' (by simp at heven ⊢; omega) hrest c hc''

theorem decodePairs_hexEncode :
    ∀ (bs : List Nat) (idx : Nat), (∀ b ∈ bs, b < 256) →
    decodePairs (hexEncode bs) idx = .ok bs
  | [], _, _ => rfl
  | b :: rest, idx, hb => by
    have hblt : b < 256 := hb b (by simp)
    have h1 : hexVal (hexDigit (b / 16)) = some (b / 16) := hexVal_hexDigit _ (by omega)
    have h2 : hexVal (hexDigit (b % 16)) = some (b % 16) := hexVal_hexDigit _ (by omega)
    have h3 := decodePairs_hexEncode rest (idx + 2) (fun x hx => hb x (by simp [hx]))
    simp [hexEncode, decodePairs, h1, h2, h3]
    omega

theorem decode_to_slice_ok_iff (s : List Nat) :
    (∃ bs, decode_to_slice s = .ok bs) ↔ (s.length = 64 ∧ ∀ c ∈ s, (hexVal c).isSome) := by
  constructor
  · rintro ⟨bs, h⟩
    unfold decode_to_slice at h
    split_ifs at h with h1 h2
    · exact ⟨by omega, decodePairs_valid_of_ok s 0 bs h1 h⟩
  · rintro ⟨hlen, hval⟩
    obtain ⟨bs, hbs, _, _⟩ := decodePairs_ok_of_valid s 0 hval
    refine ⟨bs, ?_⟩
    simp [decode_to_slice, hlen]
    exact hbs

theorem decode_to_slice_props {s bs : List Nat} (h : decode_to_slice s = .ok bs) :
    bs.length = 32 ∧ (∀ b ∈ bs, b < 256) ∧ decodePairs s 0 = .ok bs := by
  unfold decode_to_slice at h
  split_ifs at h with h1 h2
  · obtain ⟨bs', hbs', hlen, hlt⟩ :=
      decodePairs_ok_of_valid s 0 (decodePairs_valid_of_ok s 0 bs h1 h)
    have hbseq : bs' = bs := by rw [h] at hbs'; exact (Except.ok.inj hbs').symm
    subst hbseq
    exact ⟨by omega, hlt, h⟩

theorem decode_to_slice_hexEncode {bs : List Nat} (hlen : bs.length = 32)
    (hlt : ∀ b ∈ bs, b < 256) : decode_to_slice (hexEncode bs) = .ok bs := by
  have hl := hexEncode_length bs
  simp [decode_to_slice, hl, hlen]
  exact decodePairs_hexEncode bs 0 hlt

/-! ## Lemmas about the Merkle proof builder -/

namespace ParameterGenerator

theorem combinePairs_length : ∀ l : List H256, (combinePairs l).length = l.length / 2
  | [] => by simp [combinePairs]
  | [_] => by simp [combinePairs]
  | _ :: _ :: rest => by
    simp [combinePairs, combinePairs_length rest]
    omega

theorem combinePairs_getElem? :
    ∀ (l : List H256) (i : Nat) (a b : H256),
    l[2 * i]? = some a → l[2 * i + 1]? = some b →
    (combinePairs l)[i]? = some (compute_hash a b)
  | [], i, a, b => by intro h1 _; simp at h1
  | [x], i, a, b => by
    intro _ h2
    rw [List.getElem?_cons_succ] at h2
    simp at h2
  | x :: y :: rest, 0, a, b => by
    intro h1 h2
    simp at h1 h2
    subst h1; subst h2
    simp [combinePairs]
  | x :: y :: rest, i + 1, a, b => by
    intro h1 h2
    have e1 : 2 * (i + 1) = 2 * i + 1 + 1 := by ring
    have e2 : 2 * (i + 1) + 1 = 2 * i + 1 + 1 + 1 := by ring
    rw [e1, List.getElem?_cons_succ, List.getElem?_cons_succ] at h1
    rw [e2, List.getElem?_cons_succ, List.getElem?_cons_succ] at h2
    show (compute_hash x y :: combinePairs rest)[i + 1]? = some (compute_hash a b)
    rw [List.getElem?_cons_succ]
    exact combinePairs_getElem? rest i a b h1 h2

theorem padLevel_spec (level : List H256) (h : 1 ≤ level.length) :
    ∃ padded, padLevel level = some padded ∧
      padded.length = 2 * ((level.length + 1) / 2) ∧
      ∀ i, i < padded.length → padded[i]? = level[min i (level.length - 1)]? := by
  by_cases hpar : level.length % 2 = 1
  · have hlast : level.length - 1 < level.length := by omega
    refine ⟨level ++ [level[level.length - 1]], ?_, ?_, ?_⟩
    · simp [padLevel, hpar, List.getElem?_eq_getElem hlast]
    · simp; omega
    · intro i hi
      simp at hi
      by_cases hilt : i < level.length
      · rw [List.getElem?_append_left hilt]
        have hmin : min i (level.length - 1) = i := by omega
        rw [hmin]
      · have hieq : i = level.length := by omega
        subst hieq
        rw [List.getElem?_append_right (le_refl _)]
        have hmin : min level.length (level.length - 1) = level.length - 1 := by omega
        rw [hmin]
        simp [List.getElem?_eq_getElem hlast]
  · refine ⟨level, ?_, ?_, ?_⟩
    · simp [padLevel, hpar]
    · omega
    · intro i hi
      have hmin : min i (level.length - 1) = i := by omega
      rw [hmin]

end ParameterGenerator

namespace ParameterGenerator

theorem proofLoop_base (fuel : Nat) (level : List H256) (pos : Nat)
    (h : level.length ≤ 1) : proofLoop fuel level pos = some [] := by
  rw [proofLoop.eq_def]
  simp [h]

theorem proofLoop_step (f : Nat) (level : List H256) (pos : Nat)
    (h1 : ¬ level.length ≤ 1) (padded : List H256) (hpad : padLevel level = some padded)
    (sib : H256)
    (hsib : (if pos % 2 = 1 then padded[pos - 1]? else padded[pos + 1]?) = some sib)
    (rest : List H256)
    (hrest : proofLoop f (combinePairs padded) (pos / 2) = some rest) :
    proofLoop (f + 1) level pos = some (sib :: rest) := by
  by_cases hpar : pos % 2 = 1
  · rw [if_pos hpar] at hsib
    rw [proofLoop.eq_def]
    simp [h1, hpad, hpar, hsib, hrest]
  · rw [if_neg hpar] at hsib
    rw [proofLoop.eq_def]
    simp [h1, hpad, hpar, hsib, hrest]

theorem rootLoop_base (fuel : Nat) (level : List H256) (h : level.length ≤ 1) :
    rootLoop fuel level = level.head? := by
  rw [rootLoop.eq_def]
  simp [h]

theorem rootLoop_step (f : Nat) (level : List H256) (h1 : ¬ level.length ≤ 1)
    (padded : List H256) (hpad : padLevel level = some padded) :
    rootLoop (f + 1) level = rootLoop f (combinePairs padded) := by
  rw [rootLoop.eq_def]
  simp [h1, hpad]

theorem proofLoop_root_spec :
    ∀ (fuel : Nat) (level : List H256) (pos : Nat) (hf : level.length ≤ fuel)
      (hp : pos < level.length),
    ∃ proof root, proofLoop fuel level pos = some proof ∧
      rootLoop fuel level = some root ∧
      proof.length = Nat.clog 2 level.length ∧
      foldProofPath level[pos] pos proof = root := by
  intro fuel
  induction fuel with
  | zero => intro level pos hf hp; omega
  | succ f ih =>
    intro level pos hf hp
    by_cases hl : level.length ≤ 1
    · have hlen : level.length = 1 := by omega
      have hpos : pos = 0 := by omega
      subst hpos
      obtain ⟨a, rfl⟩ := List.length_eq_one.mp hlen
      refine ⟨[], a, proofLoop_base _ _ _ (by simp), ?_, ?_, ?_⟩
      · rw [rootLoop_base _ _ (by simp)]; rfl
      · simp [Nat.clog_one_right]
      · simp [foldProofPath]
    · push_neg at hl
      have h2 : 2 ≤ level.length := hl
      obtain ⟨padded, hpad, hplen, hpget⟩ := padLevel_spec level (by omega)
      have hposp : pos < padded.length := by omega
      have hmin : min pos (level.length - 1) = pos := by omega
      have hpadpos : padded[pos]? = some level[pos] := by
        rw [hpget pos (by omega), hmin]
        exact List.getElem?_eq_getElem hp
      have hclen : (combinePairs padded).length = (level.length + 1) / 2 := by
        rw [combinePairs_length]; omega
      have hfuel' : (combinePairs padded).length ≤ f := by omega
      have hpos' : pos / 2 < (combinePairs padded).length := by omega
      obtain ⟨proof', root', hploop', hrloop', hlenp', hfold'⟩ :=
        ih (combinePairs padded) (pos / 2) hfuel' hpos'
      have hclog : Nat.clog 2 level.length = Nat.clog 2 ((level.length + 1) / 2) + 1 := by
        rw [Nat.clog_of_two_le (by norm_num) h2]
        have harg : level.length + 2 - 1 = level.length + 1 := by omega
        rw [harg]
      have hroot : rootLoop (f + 1) level = some root' := by
        rw [rootLoop_step f level (by omega) padded hpad]
        exact hrloop'
      by_cases hpar : pos % 2 = 1
      · have hsi : pos - 1 < padded.length := by omega
        have hsib : padded[pos - 1]? = some padded[pos - 1] := List.getElem?_eq_getElem hsi
        have h2i : 2 * (pos / 2) = pos - 1 := by omega
        have h2i1 : 2 * (pos / 2) + 1 = pos := by omega
        have hcomb : (combinePairs padded)[pos / 2]? =
            some (compute_hash padded[pos - 1] level[pos]) := by
          apply combinePairs_getElem?
          · rw [h2i]; exact hsib
          · rw [h2i1]; exact hpadpos
        have hcelem : (combinePairs padded)[pos / 2] =
            compute_hash padded[pos - 1] level[pos] := by
          rw [List.getElem?_eq_getElem hpos'] at hcomb
          exact Option.some.inj hcomb
        refine ⟨padded[pos - 1] :: proof', root', ?_, hroot, ?_, ?_⟩
        · exact proofLoop_step f level pos (by omega) padded hpad _
            (by rw [if_pos hpar]; exact hsib) proof' hploop'
        · simp [hlenp', hclen, hclog]
        · show foldProofPath level[pos] pos (padded[pos - 1] :: proof') = root'
          rw [foldProofPath, if_pos hpar, ← hcelem]
          exact hfold'
      · have hpe : pos % 2 = 0 := by omega
        have hsi : pos + 1 < padded.length := by omega
        have hsib : padded[pos + 1]? = some padded[pos + 1] := List.getElem?_eq_getElem hsi
        have h2i : 2 * (pos / 2) = pos := by omega
        have h2i1 : 2 * (pos / 2) + 1 = pos + 1 := by omega
        have hcomb : (combinePairs padded)[pos / 2]? =
            some (compute_hash level[pos] padded[pos + 1]) := by
          apply combinePairs_getElem?
          · rw [h2i]; exact hpadpos
          · rw [h2i1]; exact hsib
        have hcelem : (combinePairs padded)[pos / 2] =
            compute_hash level[pos] padded[pos + 1] := by
          rw [List.getElem?_eq_getElem hpos'] at hcomb
          exact Option.some.inj hcomb
        refine ⟨padded[pos + 1] :: proof', root', ?_, hroot, ?_, ?_⟩
        · exact proofLoop_step f level pos (by omega) padded hpad _
            (by rw [if_neg hpar]; exact hsib) proof' hploop'
        · simp [hlenp', hclen, hclog]
        · show foldProofPath level[pos] pos (padded[pos + 1] :: proof') = root'
          rw [foldProofPath, if_neg hpar, ← hcelem]
          exact hfold'

end ParameterGenerator

/-! ## Claim theorems: Merkle proof construction -/

/-- C1: for every leaf list of length N ≥ 1 and every target_index < N,
recombining the target leaf with the proof returned by
`merkle_proof_calculator` — sibling on the left when the running index is
odd, on the right when even, halving the index each level, hashing with
`double_sha256` of the left-first concatenation — reproduces the Merkle
root of the leaf sequence (repeated pairing with the odd-level duplication
rule). -/
theorem c1_merkle_proof_recombines_to_root
    (leaves : List ParameterGenerator.H256) (target_index : Nat)
    (hne : 1 ≤ leaves.length) (hidx : target_index < leaves.length) :
    ∃ proof root,
      ParameterGenerator.merkle_proof_calculator leaves target_index = some proof ∧
      ParameterGenerator.merkleRoot leaves = some root ∧
      ParameterGenerator.foldProofPath leaves[target_index] target_index proof = root := by
  obtain ⟨proof, root, h1, h2, _, h4⟩ :=
    ParameterGenerator.proofLoop_root_spec leaves.length leaves target_index (le_refl _) hidx
  exact ⟨proof, root, h1, h2, h4⟩

/-- Witness for C1 at the single-leaf block. -/
theorem c1_witness :
    ∃ proof root,
      ParameterGenerator.merkle_proof_calculator [⟨List.replicate 32 0⟩] 0 = some proof ∧
      ParameterGenerator.merkleRoot [⟨List.replicate 32 0⟩] = some root ∧
      ParameterGenerator.foldProofPath
        ([(⟨List.replicate 32 0⟩ : ParameterGenerator.H256)])[0] 0 proof = root :=
  c1_merkle_proof_recombines_to_root [⟨List.replicate 32 0⟩] 0 (by decide) (by decide)

/-- C3: for every leaf list of length N ≥ 1 and valid target index the
proof returned by `merkle_proof_calculator` has length `ceil(log2 N)`
(`Nat.clog 2 N`), and for N = 1 the proof is empty. -/
theorem c3_proof_length_is_clog :
    (∀ (leaves : List ParameterGenerator.H256) (target_index : Nat),
      1 ≤ leaves.length → target_index < leaves.length →
      ∃ proof, ParameterGenerator.merkle_proof_calculator leaves target_index = some proof ∧
        proof.length = Nat.clog 2 leaves.length) ∧
    (∀ leaf : ParameterGenerator.H256,
      ParameterGenerator.merkle_proof_calculator [leaf] 0 = some []) := by
  constructor
  · intro leaves target_index _ hidx
    obtain ⟨proof, root, hp, _, hlen, _⟩ :=
      ParameterGenerator.proofLoop_root_spec leaves.length leaves target_index (le_refl _) hidx
    exact ⟨proof, hp, hlen⟩
  · intro leaf
    exact ParameterGenerator.proofLoop_base _ _ _ (by simp)

/-- Witness for C3 at a two-leaf block. -/
theorem c3_witness :
    ∃ proof,
      ParameterGenerator.merkle_proof_calculator
        [⟨List.replicate 32 0⟩, ⟨List.replicate 32 1⟩] 0 = some proof ∧
      proof.length =
        Nat.clog 2 ([(⟨List.replicate 32 0⟩ : ParameterGenerator.H256),
          ⟨List.replicate 32 1⟩] : List ParameterGenerator.H256).length :=
  c3_proof_length_is_clog.1 [⟨List.replicate 32 0⟩, ⟨List.replicate 32 1⟩] 0
    (by decide) (by decide)

open ParameterGenerator in
/-- C4: with an odd level the last element is duplicated for that level's
pairing only; for leaves `[A, B, C]` and target 0 the proof is exactly
`[B, double_sha256 (C ++ C)]`, and for target 2 the duplicate is the
genuine sibling, giving `[C, double_sha256 (A ++ B)]`. -/
theorem c4_odd_level_duplication (A B C : ParameterGenerator.H256) :
    merkle_proof_calculator [A, B, C] 0 =
      some [B, double_sha256 (C.bytes ++ C.bytes)] ∧
    merkle_proof_calculator [A, B, C] 2 =
      some [C, double_sha256 (A.bytes ++ B.bytes)] := by
  constructor <;>
    simp [merkle_proof_calculator, proofLoop, padLevel, combinePairs, compute_hash]

/-- C5 counterexample: with a single leaf and the out-of-range index 1,
`merkle_proof_calculator` detects nothing and successfully returns the
empty proof, so no `IndexOutOfRange` precondition failure occurs before
proof construction. -/
theorem c5_counterexample :
    ParameterGenerator.merkle_proof_calculator [⟨List.replicate 32 0⟩] 1 = some [] := by
  decide

open ParameterGenerator in
/-- C5 amended: no bounds check is performed before entry.  An
out-of-range index is, depending on the level sizes, silently accepted
with an empty proof (N = 1), hit as an index-out-of-bounds panic in the
middle of the level-by-level computation (N = 2, index 2), or silently
accepted with a meaningless proof (N = 3, index 3). -/
theorem c5_amended_no_precondition_check (a b c : ParameterGenerator.H256) :
    merkle_proof_calculator [a] 1 = some [] ∧
    merkle_proof_calculator [a, b] 2 = none ∧
    merkle_proof_calculator [a, b, c] 3 = some [c, compute_hash a b] := by
  refine ⟨?_, ?_, ?_⟩ <;>
    simp [merkle_proof_calculator, proofLoop, padLevel, combinePairs]

/-! ## Claim theorems: the verification callback -/

/-- C2 counterexample: a settled-successful remote result whose bytes
`"no"` are not a well-formed JSON boolean makes
`internal_verify_withdraw_callback` panic on `.unwrap()` (no boolean
result), rather than return `false` as the claim states. -/
theorem c2_counterexample :
    Contract.internal_verify_withdraw_callback (some [110, 111]) = none := by
  decide

/-- C2 amended: when the remote call produced no successful result the
continuation returns `false`; when it produced a successful result whose
bytes are not a well-formed JSON boolean the continuation panics on
`.unwrap()` (observed as a failed callback, not as a result) instead of
returning `false`; in every settling, a returned `true` can only arise
from a successful result whose bytes are the JSON boolean `true`. -/
theorem c2_amended_fail_closed :
    Contract.internal_verify_withdraw_callback none = some (false, []) ∧
    (∀ bs, parseJsonBool bs = none →
      Contract.internal_verify_withdraw_callback (some bs) = none) ∧
    (∀ bs out, Contract.internal_verify_withdraw_callback (some bs) = some out →
      out.1 = true → parseJsonBool bs = some true) := by
  refine ⟨rfl, ?_, ?_⟩
  · intro bs h
    simp [Contract.internal_verify_withdraw_callback, h]
  · intro bs out hcb htrue
    rcases hpj : parseJsonBool bs with _ | b
    · simp [Contract.internal_verify_withdraw_callback, hpj] at hcb
    · simp [Contract.internal_verify_withdraw_callback, hpj] at hcb
      rw [← hcb] at htrue
      simp at htrue
      rw [htrue]

/-- Witness for C2 (amended) at the malformed byte string `"f"`. -/
theorem c2_witness :
    Contract.internal_verify_withdraw_callback (some [102]) = none :=
  c2_amended_fail_closed.2.1 [102] (by decide)

/-- C9: in `internal_verify_withdraw_callback` the log side effect is
performed iff the returned outcome is `true`: a successful `true` result
logs and returns `true`, a successful `false` result returns `false` with
no side effect, and a failed remote call returns `false` with no side
effect. -/
theorem c9_log_iff_true :
    (∀ r out, Contract.internal_verify_withdraw_callback r = some out →
      (out.2 ≠ [] ↔ out.1 = true)) ∧
    Contract.internal_verify_withdraw_callback (some [116, 114, 117, 101]) =
      some (true, ["business logic"]) ∧
    Contract.internal_verify_withdraw_callback (some [102, 97, 108, 115, 101]) =
      some (false, []) ∧
    Contract.internal_verify_withdraw_callback none = some (false, []) := by
  refine ⟨?_, by decide, by decide, rfl⟩
  intro r out hcb
  rcases r with _ | bs
  · simp [Contract.internal_verify_withdraw_callback] at hcb
    rw [← hcb]
    simp
  · rcases hpj : parseJsonBool bs with _ | b
    · simp [Contract.internal_verify_withdraw_callback, hpj] at hcb
    · simp [Contract.internal_verify_withdraw_callback, hpj] at hcb
      rw [← hcb]
      rcases b <;> simp

/-- Witness for C9 at the failed-call settling. -/
theorem c9_witness :
    ((false, ([] : List String)).2 ≠ [] ↔ (false, ([] : List String)).1 = true) :=
  c9_log_iff_true.1 none (false, []) (by decide)

/-! ## Claim theorems: hex parsing, display, and wire encodings -/

theorem parseProofList_none {mp : List (List Nat)} {v : List Nat} (hv : v ∈ mp)
    {e : FromHexError} (he : Contract.H256.from_str v = .error e) :
    Contract.parseProofList mp = none := by
  induction mp with
  | nil => simp at hv
  | cons w rest ih =>
    rcases List.mem_cons.mp hv with rfl | hv'
    · simp [Contract.parseProofList, he]
    · rcases hw : Contract.H256.from_str w with e' | h'
      · simp [Contract.parseProofList, hw]
      · simp [Contract.parseProofList, hw, ih hv']

/-- C6: `H256` parsing in the contract succeeds exactly when the input is
valid hex decoding to exactly 32 bytes, stores the decoded bytes reversed,
and fails with a hex-encoding error otherwise; and whenever any hex string
supplied to `Contract::verify_transaction_inclusion` is malformed the
request fails synchronously with no promise dispatched. -/
theorem c6_parse_iff_and_fail_before_dispatch :
    (∀ s : List Nat, (∃ h, Contract.H256.from_str s = .ok h) ↔
      (s.length = 64 ∧ ∀ c ∈ s, (hexVal c).isSome)) ∧
    (∀ (s bs : List Nat) (h : Contract.H256), decodePairs s 0 = .ok bs →
      Contract.H256.from_str s = .ok h → h.bytes = bs.reverse) ∧
    (∀ s : List Nat, ¬ (s.length = 64 ∧ ∀ c ∈ s, (hexVal c).isSome) →
      ∃ e, Contract.H256.from_str s = .error e) ∧
    (∀ (tx bh : List Nat) (idx : Nat) (mp : List (List Nat)) (conf : Nat),
      ((∃ e, Contract.H256.from_str tx = .error e) ∨
       (∃ e, Contract.H256.from_str bh = .error e) ∨
       (∃ v ∈ mp, ∃ e, Contract.H256.from_str v = .error e)) →
      Contract.verify_transaction_inclusion tx bh idx mp conf = none) := by
  have key : ∀ s : List Nat, (∃ h, Contract.H256.from_str s = .ok h) ↔
      (s.length = 64 ∧ ∀ c ∈ s, (hexVal c).isSome) := by
    intro s
    constructor
    · rintro ⟨h, hok⟩
      rcases hd : decode_to_slice s with e | bs
      · simp [Contract.H256.from_str, hd] at hok
      · exact (decode_to_slice_ok_iff s).mp ⟨bs, hd⟩
    · intro hv
      obtain ⟨bs, hd⟩ := (decode_to_slice_ok_iff s).mpr hv
      exact ⟨⟨bs.reverse⟩, by simp [Contract.H256.from_str, hd]⟩
  refine ⟨key, ?_, ?_, ?_⟩
  · intro s bs h hdp hok
    rcases hd : decode_to_slice s with e | bs'
    · simp [Contract.H256.from_str, hd] at hok
    · obtain ⟨_, _, hdp'⟩ := decode_to_slice_props hd
      have hbs : bs' = bs := by rw [hdp] at hdp'; exact (Except.ok.inj hdp').symm
      subst hbs
      simp [Contract.H256.from_str, hd] at hok
      rw [← hok]
  · intro s hn
    rcases he : Contract.H256.from_str s with e | h
    · exact ⟨e, rfl⟩
    · exact absurd ((key s).mp ⟨h, he⟩) hn
  · intro tx bh idx mp conf hbad
    rcases hbad with ⟨e, he⟩ | ⟨e, he⟩ | ⟨v, hv, e, he⟩
    · simp [Contract.verify_transaction_inclusion, he]
    · rcases htx : Contract.H256.from_str tx with e' | t
      · simp [Contract.verify_transaction_inclusion, htx]
      · simp [Contract.verify_transaction_inclusion, htx, he]
    · rcases htx : Contract.H256.from_str tx with e' | t
      · simp [Contract.verify_transaction_inclusion, htx]
      · rcases hbh : Contract.H256.from_str bh with e' | b
        · simp [Contract.verify_transaction_inclusion, htx, hbh]
        · simp [Contract.verify_transaction_inclusion, htx, hbh,
            parseProofList_none hv he]

/-- Witness for C6: the empty (malformed) transaction id string makes the
whole request abort with no promise. -/
theorem c6_witness :
    Contract.verify_transaction_inclusion [] [] 0 [] 0 = none :=
  c6_parse_iff_and_fail_before_dispatch.2.2.2 [] [] 0 [] 0
    (Or.inl ⟨.InvalidStringLength, by decide⟩)

/-- C7: for every hex string accepted by the parser, rendering the parsed
value with the display conversion and parsing again returns the same
value, and the display form is the hex encoding of the reversed stored
bytes (the natural-order bytes never appear unreversed). -/
theorem c7_display_parse_roundtrip :
    ∀ (s : List Nat) (h : ParameterGenerator.H256),
      ParameterGenerator.H256.from_str s = .ok h →
      ParameterGenerator.H256.from_str (ParameterGenerator.H256.to_display_string h) =
        .ok h ∧
      ParameterGenerator.H256.to_display_string h = hexEncode h.bytes.reverse := by
  intro s h hok
  rcases hd : decode_to_slice s with e | bs
  · simp [ParameterGenerator.H256.from_str, hd] at hok
  · simp [ParameterGenerator.H256.from_str, hd] at hok
    obtain ⟨hlen, hlt, _⟩ := decode_to_slice_props hd
    refine ⟨?_, rfl⟩
    rw [← hok]
    simp [ParameterGenerator.H256.from_str, ParameterGenerator.H256.to_display_string,
      List.reverse_reverse, decode_to_slice_hexEncode hlen hlt]

/-- Witness for C7 at the all-zero hash. -/
theorem c7_witness :
    ParameterGenerator.H256.from_str
      (ParameterGenerator.H256.to_display_string ⟨List.replicate 32 0⟩) =
      .ok (⟨List.replicate 32 0⟩ : ParameterGenerator.H256) ∧
    ParameterGenerator.H256.to_display_string
      (⟨List.replicate 32 0⟩ : ParameterGenerator.H256) =
      hexEncode ((⟨List.replicate 32 0⟩ : ParameterGenerator.H256).bytes).reverse :=
  c7_display_parse_roundtrip (List.replicate 64 48) ⟨List.replicate 32 0⟩ (by decide)

/-- C8: the borsh wire encoding of an `H256` is its 32 bytes in natural
order while the serde hex encoding emits the bytes fully reversed; hex
decoding the serde output yields exactly the byte reversal of the borsh
output; and in the borsh encoding of `ProofArgs` the transaction hash
appears unreversed at the front. -/
theorem c8_wire_natural_display_reversed :
    (∀ h : Contract.H256, h.bytes.length = 32 → (∀ b ∈ h.bytes, b < 256) →
      Contract.H256.borshSerialize h = h.bytes ∧
      Contract.H256.serdeSerialize h = hexEncode h.bytes.reverse ∧
      decodePairs (Contract.H256.serdeSerialize h) 0 =
        .ok (Contract.H256.borshSerialize h).reverse) ∧
    (∀ p : Contract.ProofArgs, p.tx_id.bytes.length = 32 →
      (Contract.ProofArgs.borshSerialize p).take 32 =
        Contract.H256.borshSerialize p.tx_id) := by
  constructor
  · intro h _ hlt
    refine ⟨rfl, rfl, ?_⟩
    exact decodePairs_hexEncode h.bytes.reverse 0
      (fun b hb => hlt b (List.mem_reverse.mp hb))
  · intro p hlen
    unfold Contract.ProofArgs.borshSerialize Contract.H256.borshSerialize
    simp only [List.append_assoc]
    rw [List.take_left' hlen]

/-- Witness for C8 at the all-zero hash. -/
theorem c8_witness :
    Contract.H256.borshSerialize ⟨List.replicate 32 0⟩ =
      (⟨List.replicate 32 0⟩ : Contract.H256).bytes ∧
    Contract.H256.serdeSerialize ⟨List.replicate 32 0⟩ =
      hexEncode ((⟨List.replicate 32 0⟩ : Contract.H256).bytes).reverse ∧
    decodePairs (Contract.H256.serdeSerialize ⟨List.replicate 32 0⟩) 0 =
      .ok (Contract.H256.borshSerialize (⟨List.replicate 32 0⟩ : Contract.H256)).reverse :=
  c8_wire_natural_display_reversed.1 ⟨List.replicate 32 0⟩ (by decide) (by decide)

/-- C10: the contract's and the parameter generator's `H256`
implementations are extensionally equal: `from_str` agrees on every input
(same bytes, same failures) and the serde hex serializations agree on
every byte content. -/
theorem c10_h256_implementations_agree :
    (∀ s : List Nat,
      Except.map ParameterGenerator.H256.bytes (ParameterGenerator.H256.from_str s) =
      Except.map Contract.H256.bytes (Contract.H256.from_str s)) ∧
    (∀ bytes : List Nat,
      ParameterGenerator.H256.serdeSerialize ⟨bytes⟩ =
      Contract.H256.serdeSerialize ⟨bytes⟩) := by
  constructor
  · intro s
    unfold ParameterGenerator.H256.from_str Contract.H256.from_str
    rcases hd : decode_to_slice s with e | bs <;> rfl
  · intro bytes
    rfl
